import Mathlib

/-!
Verification development for the `py-race-results` repository.

The repository scrapes road-race result pages, matches lines against a club
membership roster using compiled regular expressions, and appends the matched
fragments to a single HTML output document.

The Python sources build their matchers from a small, fixed fragment of the
`re` language: literal text (case-sensitive or `re.IGNORECASE`), the classes
`\s`, `\d`, the wildcard `.` (which does not match a newline), alternations of
literal strings such as `(?:Ed|Ford)` or `(02|03)`, the quantified classes
`\s+`, `\s*`, `.*`, and the zero-width word boundary `\b`.  We embed exactly
that fragment: a pattern is a list of `RE` nodes, and matching follows
Python semantics (a search succeeds iff the pattern matches starting at some
position; `re.match` anchors at position 0; `\w` is alphanumeric or
underscore; `\b` holds where the word-character status changes).  The
embedding is executable so concrete lines from the spec can be checked by
evaluation.
-/

/-- Python `\w` (ASCII fragment): alphanumeric or underscore. -/
def isWordChar (c : Char) : Bool := c.isAlphanum || c = '_'

/-- Python `\s` (ASCII fragment): space, tab, newline, carriage return,
vertical tab, form feed. -/
def isSpaceChar (c : Char) : Bool :=
  c = ' ' || c = '\t' || c = '\n' || c = '\r' || c = '\x0b' || c = '\x0c'

/-- Python `\d` (ASCII fragment). -/
def isDigitChar (c : Char) : Bool := c.isDigit

/-- Case-insensitive character comparison, as under `re.IGNORECASE`. -/
def eqCI (a b : Char) : Bool := a.toLower = b.toLower

/-- Case-insensitive string comparison (requires equal lengths). -/
def strEqCI : List Char → List Char → Bool
  | [], [] => true
  | a :: as, b :: bs => eqCI a b && strEqCI as bs
  | _, _ => false

/-- Drop a literal pattern from the front of the input (case-sensitive). -/
def dropLit : List Char → List Char → Option (List Char)
  | [], s => some s
  | _ :: _, [] => none
  | p :: ps, c :: cs => if p = c then dropLit ps cs else none

/-- Drop a literal pattern from the front of the input (case-insensitive). -/
def dropLitCI : List Char → List Char → Option (List Char)
  | [], s => some s
  | _ :: _, [] => none
  | p :: ps, c :: cs => if eqCI p c then dropLitCI ps cs else none

/-- Word-character status of the character just before the current position;
`false` at the start of the string (Python treats the border of the string as
a non-word position for `\b`). -/
def lastFlag (pre : List Char) : Bool :=
  match pre.getLast? with
  | some c => isWordChar c
  | none => false

/-- Word-character status carried forward after consuming `t`, starting from
status `pre`. -/
def endFlag (pre : Bool) (t : List Char) : Bool :=
  match t.getLast? with
  | some c => isWordChar c
  | none => pre

/-- Word-character status of the head of the remaining input (`false` at the
end of the string). -/
def headIsWord : List Char → Bool
  | [] => false
  | c :: _ => isWordChar c

/-- The fragment of Python regular expressions used by the repository. -/
inductive RE where
  | lit (cs : List Char)
  | litCI (cs : List Char)
  | anyNN
  | altLit (alts : List (List Char))
  | altLitCI (alts : List (List Char))
  | manyCls (p : Char → Bool)
  | many1Cls (p : Char → Bool)
  | wordB

/-- All ways a single node can consume a piece of the input.  The state is
the word-character status of the previously consumed character (needed for
`\b`), paired with the remaining input. -/
def consume : RE → Bool → List Char → List (Bool × List Char)
  | .lit cs, prev, s =>
      match dropLit cs s with
      | some r => [(endFlag prev (s.take cs.length), r)]
      | none => []
  | .litCI cs, prev, s =>
      match dropLitCI cs s with
      | some r => [(endFlag prev (s.take cs.length), r)]
      | none => []
  | .anyNN, _, s =>
      match s with
      | [] => []
      | c :: r => if c = '\n' then [] else [(isWordChar c, r)]
  | .altLit alts, prev, s =>
      alts.flatMap fun a =>
        match dropLit a s with
        | some r => [(endFlag prev (s.take a.length), r)]
        | none => []
  | .altLitCI alts, prev, s =>
      alts.flatMap fun a =>
        match dropLitCI a s with
        | some r => [(endFlag prev (s.take a.length), r)]
        | none => []
  | .manyCls p, prev, s =>
      (List.range ((s.takeWhile p).length + 1)).map fun k =>
        (endFlag prev (s.take k), s.drop k)
  | .many1Cls p, prev, s =>
      (List.range (s.takeWhile p).length).map fun k =>
        (endFlag prev (s.take (k + 1)), s.drop (k + 1))
  | .wordB, prev, s => if prev ≠ headIsWord s then [(prev, s)] else []

/-- All ways a sequence of nodes can consume a piece of the input. -/
def seqC : List RE → Bool → List Char → List (Bool × List Char)
  | [], prev, s => [(prev, s)]
  | r :: rs, prev, s => (consume r prev s).flatMap fun b => seqC rs b.1 b.2

/-- Does the pattern match starting exactly at the current position?  (The
rest of the input is unconstrained, as for an unanchored Python pattern.) -/
def matchesAt (rs : List RE) (prev : Bool) (s : List Char) : Bool :=
  !(seqC rs prev s).isEmpty

/-- Scan every starting position, carrying the word-character status of the
character before each position. -/
def searchAux (rs : List RE) (prev : Bool) : List Char → Bool
  | [] => matchesAt rs prev []
  | c :: r => matchesAt rs prev (c :: r) || searchAux rs (isWordChar c) r

/-- Python `pattern.search(s)` as a Boolean. -/
def reSearch (rs : List RE) (s : String) : Bool :=
  searchAux rs false s.data

/-- Python `re.match(pattern, s)` as a Boolean (anchored at position 0). -/
def reMatchB (rs : List RE) (s : String) : Bool :=
  matchesAt rs false s.data

/-- Python exceptions that the embedded code can raise. -/
inductive PyErr where
  | nameError
  | typeError
  | attributeError
  | valueError
  | indexError
  deriving DecidableEq, Repr

/-- Calendar date, compared lexicographically like `datetime.date`. -/
structure Date where
  year : Nat
  month : Nat
  day : Nat
  deriving DecidableEq, Repr

/-- Lexicographic comparison of dates, as implemented by `datetime.date`. -/
def Date.leB (a b : Date) : Bool :=
  if a.year ≠ b.year then a.year < b.year
  else if a.month ≠ b.month then a.month < b.month
  else a.day ≤ b.day

/-- Rendering of `"%02d" % n` for `n < 100` (two digits, zero padded). -/
def pad2 (n : Nat) : List Char :=
  [Nat.digitChar (n / 10), Nat.digitChar (n % 10)]

/-- Python `str.split(sep)` for a one-character separator. -/
def splitOnChar (sep : Char) : List Char → List (List Char)
  | [] => [[]]
  | c :: rest =>
      match splitOnChar sep rest with
      | [] => [[]]
      | g :: gs => if c = sep then [] :: g :: gs else (c :: g) :: gs

/-!
Embedding of `rr/common.py`.

`RaceResults.load_membership_list` compiles, for each member row with columns
`fname` and `lname`, the pattern
`'\b(?:' + fname + '|' + lname + ')' + '\s+(?:' + lname + '|' + fname + ')\b'`
with `re.IGNORECASE`, and `RaceResults.match_against_membership(line)` returns
`True` iff some member's compiled pattern matches somewhere in the line.
The membership data is modelled as the list of `(fname, lname)` pairs read
from the spreadsheet.
-/

/-- The compiled column `df['fname_lname_regex'][j]` for member `m`. -/
def fname_lname_regex (m : String × String) : List RE :=
  [.wordB, .altLitCI [m.1.data, m.2.data], .many1Cls isSpaceChar,
   .altLitCI [m.2.data, m.1.data], .wordB]

/-- Embedding of `RaceResults.match_against_membership`: scan the member regexes and
return `True` on the first that matches the line. -/
def match_against_membership (df : List (String × String)) (line : String) : Bool :=
  df.any fun m => reSearch (fname_lname_regex m) line

/-!
Embedding of `rr/brrr.py` (BestRace).

`brrr.parse_banner` walks the lines of the `pre` element's text and
accumulates `line + '\n'` until the first line where `re.match('\s+1', line)`
succeeds.
-/

/-- The stop test `re.match('\s+1', line)` used by `parse_banner`. -/
def bannerStop (line : String) : Bool :=
  reMatchB [.many1Cls isSpaceChar, .lit ['1']] line

/-- The accumulation loop of `brrr.parse_banner`. -/
def parse_banner_go (banner : String) : List String → String
  | [] => banner
  | line :: rest =>
      if bannerStop line then banner
      else parse_banner_go (banner ++ line ++ "\n") rest

/-- Embedding of `brrr.parse_banner`, applied to the text lines of the `pre` element. -/
def parse_banner (lines : List String) : String :=
  parse_banner_go "" lines

/-!
`brrr.process_master_file` builds the candidate-URL pattern

  `'http://www.bestrace.com/results/%s/%s%s' % (yy, yy, mm)`
  followed by `'(' + d_1 + '|' + ... + '|' + d_k + ')'` where the `d_i` are
  `'%02d' % day` for `day in range(start_date.day, stop_date.day)` plus
  `'%02d' % stop_date.day`, followed by `'.*HTM'`,

and keeps an anchor's `href` iff `re.match(pattern, href)` succeeds.  In the
pattern's literal part the characters `.` are regex wildcards, so the literal
text is compiled character by character with `.` mapped to the wildcard
node. -/

/-- Rendering of `strftime('%y')`: the year modulo 100, zero padded. -/
def strftimeY (d : Date) : List Char := pad2 (d.year % 100)

/-- Rendering of `strftime('%m')`: the month, zero padded. -/
def strftimeM (d : Date) : List Char := pad2 d.month

/-- Compile literal pattern text, where `.` is the wildcard. -/
def litDots (s : List Char) : List RE :=
  s.map fun c => if c = '.' then RE.anyNN else RE.lit [c]

/-- The day alternation `range(start_date.day, stop_date.day)` plus
`stop_date.day`, each rendered with `'%02d'`. -/
def bestrace_day_range (sd ed : Date) : List (List Char) :=
  ((List.range' sd.day (ed.day - sd.day)).map pad2) ++ [pad2 ed.day]

/-- The literal part of the pattern before the day alternation. -/
def bestrace_head (sd : Date) : List Char :=
  ("http://www.bestrace.com/results/".data ++ strftimeY sd ++ "/".data
   ++ strftimeY sd ++ strftimeM sd)

/-- The full candidate-URL pattern built by `brrr.process_master_file`. -/
def bestrace_pattern (sd ed : Date) : List RE :=
  litDots (bestrace_head sd) ++ [RE.altLit (bestrace_day_range sd ed)]
    ++ [RE.manyCls (fun c => c ≠ '\n'), RE.lit ['H', 'T', 'M']]

/-- The selection test applied to each anchor's `href`. -/
def bestrace_selects (sd ed : Date) (href : String) : Bool :=
  reMatchB (bestrace_pattern sd ed) href

/-- A BestRace result URL embedding the date `d`:
`http://www.bestrace.com/results/YY/YYMMDD<suffix>`. -/
def bestrace_url (d : Date) (sfx : String) : String :=
  ⟨"http://www.bestrace.com/results/".data ++ strftimeY d ++ "/".data
   ++ strftimeY d ++ strftimeM d ++ pad2 d.day ++ sfx.data⟩

/-!
Embedding of the output-document state of `rr/common.py`.

The output file always holds the serialization of the current document tree:
`initialize_output_file` writes the fixed skeleton, and
`insert_race_results` re-parses the file (recovering the current tree),
appends the fragment as the last child of the sole `body` element,
re-serializes and rewrites the file.  The parse–serialize round trip of
`lxml.etree` is modelled as the identity on the tree, so the document is
represented by its list of body children (each fragment by its rendered
text), and the file contents by the deterministic serialization below.
-/

/-- The output document: the fixed skeleton plus the body's children. -/
structure Doc where
  bodyChildren : List String
  deriving DecidableEq, Repr

/-- Serialization of the output document to the bytes on disk. -/
def serializeDoc (d : Doc) : String :=
  "<html><head><link rel=stylesheet href=rr.css type=text/css></head><body>"
    ++ String.join d.bodyChildren ++ "</body></html>"

/-- The mutable state of a `RaceResults` object that the extraction pipeline
touches: the downloaded markup, the parsed output document, the bytes of the
output file, and how many times `insert_race_results` has run. -/
structure RRState where
  html : String
  doc : Doc
  outputFile : String
  insertCalls : Nat
  deriving DecidableEq, Repr

/-- Embedding of `RaceResults.initialize_output_file`: write the fixed skeleton. -/
def initialize_output_file (st : RRState) : RRState :=
  { st with doc := ⟨[]⟩, outputFile := serializeDoc ⟨[]⟩ }

/-- Embedding of `RaceResults.insert_race_results`: parse the output file, append the
fragment as the last child of `body`, serialize and rewrite the file. -/
def insert_race_results (st : RRState) (results : String) : RRState :=
  let newDoc : Doc := ⟨st.doc.bodyChildren ++ [results]⟩
  { st with doc := newDoc, outputFile := serializeDoc newDoc,
            insertCalls := st.insertCalls + 1 }

/-- Embedding of `RaceResults.compile_race_results` (and the identical
`CompuScore.compile_race_results`): collect the lines of the downloaded race
file that match the membership list; only if at least one matched, webify
them and insert them into the output file.  `webify` stands for the
subclass's `webify_results`. -/
def compile_race_results (df : List (String × String))
    (webify : List String → String) (st : RRState) : RRState :=
  let results := ((splitOnChar '\n' st.html.data).map
    fun l => (⟨l⟩ : String)).filter fun line =>
      match_against_membership df line
  if results.length > 0 then insert_race_results st (webify results) else st

/-!
Embedding of `rr/crrr.py` (CoolRunning).

`CoolRunning.compile_race_results` reads the race page's vendor identifier
(`get_author`) and branches on it with a chain of list-membership tests.
-/

/-- The outcome of the variant dispatch in `CoolRunning.compile_race_results`. -/
inductive VariantAction where
  | ccrrTable
  | vanilla
  | skipInfo
  | fallbackVanillaWarn
  deriving DecidableEq, Repr

/-- The dispatch chain of `CoolRunning.compile_race_results`, branch for
branch. -/
def crrr_variant_action (variant : String) : VariantAction :=
  if variant ∈ ["CapeCodRoadRunners"] then .ccrrTable
  else if variant ∈ ["kick610", "JB Race", "gstate", "ab-mac", "FTO", "NSTC",
           "ndatrackxc", "wcrc", "Spitler"] then .vanilla
  else if variant ∈ ["colonial", "opportunity"] then .skipInfo
  else if variant ∈ ["Harriers"] then .skipInfo
  else if variant ∈ ["FFAST", "lungne", "northeastracers", "sri"] then
    .skipInfo
  else if variant ∈ ["WCRCSCOTT"] then .skipInfo
  else .fallbackVanillaWarn

/-- Which dispatch outcomes attempt an extraction of results. -/
def attemptsExtraction : VariantAction → Bool
  | .ccrrTable => true
  | .vanilla => true
  | .skipInfo => false
  | .fallbackVanillaWarn => true

/-- Which dispatch outcomes log a warning (the unknown-variant fallback). -/
def logsWarning : VariantAction → Bool
  | .fallbackVanillaWarn => true
  | _ => false

/-- Every variant identifier that the dispatch recognizes explicitly. -/
def crrr_known_variants : List String :=
  ["CapeCodRoadRunners", "kick610", "JB Race", "gstate", "ab-mac", "FTO",
   "NSTC", "ndatrackxc", "wcrc", "Spitler", "colonial", "opportunity",
   "Harriers", "FFAST", "lungne", "northeastracers", "sri", "WCRCSCOTT"]

/-- Python substring containment `pat in s`. -/
def containsSub (pat s : List Char) : Bool :=
  (List.range (s.length + 1)).any fun i => pat.isPrefixOf (s.drop i)

/-- The base name used for secondary chunks: for `race_file` the code runs
`parts = race_file.split('.')` and takes `parts[-2][0:-1]` (the stem with its
final character removed). -/
def innerBase (race_file : String) : String :=
  let parts := splitOnChar '.' race_file.data
  ⟨(parts.getD (parts.length - 2) []).dropLast⟩

/-- Try to match `<a href="(\./BASE\d+\.shtml)">` at the current position,
returning the captured group and the input after the whole match. -/
def linkAt (base : List Char) (s : List Char) : Option (List Char × List Char) :=
  match dropLit "<a href=\"./".data s with
  | none => none
  | some r1 =>
      match dropLit base r1 with
      | none => none
      | some r2 =>
          match r2.takeWhile isDigitChar with
          | [] => none
          | d :: ds =>
              match dropLit ".shtml".data (r2.drop (d :: ds).length) with
              | none => none
              | some r3 =>
                  match dropLit "\">".data r3 with
                  | none => none
                  | some r4 =>
                      some ("./".data ++ base ++ (d :: ds) ++ ".shtml".data, r4)

/-- The scan of `inner_regex.finditer(markup)`: find non-overlapping
occurrences left to right. -/
def findInnerLinksGo (base : List Char) : Nat → List Char → List (List Char)
  | 0, _ => []
  | _, [] => []
  | fuel + 1, c :: rest =>
      match linkAt base (c :: rest) with
      | some (g, after) => g :: findInnerLinksGo base fuel after
      | none => findInnerLinksGo base fuel rest

/-- All captured `inner_url` groups in the markup. -/
def findInnerLinks (base : String) (markup : String) : List String :=
  (findInnerLinksGo base.data markup.data.length markup.data).map
    fun l => ⟨l⟩

/-- The secondary-chunk loop of `CoolRunning.process_state_master_file`:
for each discovered link, skip it when its text occurs inside
`top_level_url` (the `'Already seen this one'` guard, a Python substring
test), otherwise download and process the file named by the link without its
leading `./`.  The returned list is the sequence of local files downloaded
and processed, in order. -/
def process_secondary (top_level_url : String) (markup : String) : List String :=
  let race_file : String := ⟨(splitOnChar '/' top_level_url.data).getLastD []⟩
  let base := innerBase race_file
  (findInnerLinks base markup).filterMap fun l =>
    if containsSub l.data top_level_url.data then none
    else some (l.drop 2)

/-!
Embedding of `RaceResults.parse_membership_list` and its callers.

The body of `parse_membership_list` evaluates `csv.reader(fptr, ...)`, but
`rr/common.py` never imports `csv`; the names bound at module level are
exactly those introduced by its import statements plus its own definitions.
Evaluating the unbound name raises `NameError` before any row is read.
`CoolRunning.load_membership_list` additionally calls the method with no
`csv_file` argument at all, which raises `TypeError` (missing required
positional argument) before the body even runs.
-/

/-- The names bound at module level in `rr/common.py`: `import datetime as
dt`, `import logging`, `import re`, `import urllib`, `import
xml.dom.minidom`, `import xml.etree.cElementTree as ET`, `from lxml import
etree`, `import pandas as pd`, plus the definitions `RaceResults` and
`pretty_print_xml`. -/
def common_module_globals : List String :=
  ["dt", "logging", "re", "urllib", "xml", "ET", "etree", "pd",
   "RaceResults", "pretty_print_xml"]

/-- Embedding of `RaceResults.parse_membership_list(csv_file)`: resolve the name `csv`
(raising `NameError` when it is unbound), then read the rows as
`(row[0], row[1])` pairs. -/
def parse_membership_list (globals : List String) (rows : List (List String)) :
    Except PyErr (List (String × String)) :=
  if globals.contains "csv" then
    rows.mapM fun row =>
      match row with
      | a :: b :: _ => Except.ok (a, b)
      | _ => Except.error PyErr.indexError
  else Except.error PyErr.nameError

/-- Calling the one-argument method `parse_membership_list`: with no
argument the call raises `TypeError` before the body runs. -/
def invoke_parse_membership_list (globals : List String)
    (arg : Option (List (List String))) : Except PyErr (List (String × String)) :=
  match arg with
  | none => Except.error PyErr.typeError
  | some rows => parse_membership_list globals rows

/-- Embedding of `CoolRunning.load_membership_list`: iterate over
`self.parse_membership_list()` (called with no argument) and compile the
word-bounded first/last name regexes. -/
def crrr_load_membership_list : Except PyErr (List (List RE) × List (List RE)) :=
  match invoke_parse_membership_list common_module_globals none with
  | Except.error e => Except.error e
  | Except.ok names =>
      Except.ok
        (names.map fun m => [RE.wordB, RE.litCI m.2.data, RE.wordB],
         names.map fun m => [RE.wordB, RE.litCI m.1.data, RE.wordB])

/-!
Embedding of `rr/csrr.py` (CompuScore).

`CompuScore.run` compiles, for each `(last_name, first_name)` roster row,
the patterns `'\.' + first_name + '\b'` and `'\b' + last_name + '\b'` with
`re.IGNORECASE`; `CompuScore.match_against_membership(line)` returns `True`
iff for some row both patterns match somewhere in the line.
-/

/-- The CompuScore first-name pattern `'\.' + first_name + '\b'`. -/
def csrr_first_name_regex (first : String) : List RE :=
  [.lit ['.'], .litCI first.data, .wordB]

/-- The CompuScore last-name pattern `'\b' + last_name + '\b'`. -/
def csrr_last_name_regex (last : String) : List RE :=
  [.wordB, .litCI last.data, .wordB]

/-- Embedding of `CompuScore.match_against_membership` over the `(last, first)` roster
rows. -/
def csrr_match_against_membership (roster : List (String × String))
    (line : String) : Bool :=
  roster.any fun m =>
    reSearch (csrr_first_name_regex m.2) line &&
    reSearch (csrr_last_name_regex m.1) line

/-!
`CompuScore.get_race_date` first searches `self.html` for
`<h3.*>(?P<h3>.*)</h3>`; if that fails it searches for the literal
`Race Date:\d\d-\d\d-\d\d` and calls `.group()` on the result, so when that
also fails the `None` result raises `AttributeError`.  The recovered text is
then searched for `\s*Race\sDate:(?P<mo>\d{1,2})-(?P<dd>\d{2})-(?P<yy>\d{2})\s*`
and again `.group(...)` is called unconditionally, so a missing marker
raises `AttributeError`.  The two-digit year is mapped to `2000 + yy` and
the parts are passed to `datetime.date`, which validates them.
-/

/-- All indices of `s` at which `pat` occurs. -/
def positionsOf (pat s : List Char) : List Nat :=
  (List.range (s.length + 1)).filter fun i => pat.isPrefixOf (s.drop i)

/-- Match `.*>(?P<h3>.*)</h3>` right after a `<h3` occurrence, on the rest
of the line: the first `.*` is greedy (latest possible `>`), then the group
is greedy (latest possible `</h3>`). -/
def matchH3At (r : List Char) : Option (List Char) :=
  let L := r.takeWhile fun c => c ≠ '\n'
  let js := positionsOf "</h3>".data L
  let iCands := (List.range L.length).filter fun i =>
    (L.drop i).head? = some '>' && js.any fun j => i + 1 ≤ j
  match iCands.max? with
  | none => none
  | some i =>
      match (js.filter fun j => i + 1 ≤ j).max? with
      | none => none
      | some j => some ((L.drop (i + 1)).take (j - (i + 1)))

/-- Leftmost match of `<h3.*>(?P<h3>.*)</h3>`, returning the group. -/
def h3Search (s : List Char) : Option (List Char) :=
  ((List.range (s.length + 1)).filterMap fun p =>
    if "<h3".data.isPrefixOf (s.drop p) then matchH3At (s.drop (p + 3))
    else none).head?

/-- Does `Race Date:\d\d-\d\d-\d\d` match at the current position? -/
def litDateAt (r : List Char) : Bool :=
  match dropLit "Race Date:".data r with
  | none => false
  | some rest =>
      match rest with
      | d1 :: d2 :: h1 :: d3 :: d4 :: h2 :: d5 :: d6 :: _ =>
          isDigitChar d1 && isDigitChar d2 && h1 = '-' && isDigitChar d3 &&
          isDigitChar d4 && h2 = '-' && isDigitChar d5 && isDigitChar d6
      | _ => false

/-- Leftmost match of the literal pattern `Race Date:\d\d-\d\d-\d\d`,
returning the matched text (18 characters). -/
def literalDateSearch (s : List Char) : Option (List Char) :=
  ((List.range (s.length + 1)).filterMap fun p =>
    if litDateAt (s.drop p) then some ((s.drop p).take 18) else none).head?

/-- Numeric value of a decimal digit character. -/
def digitVal (c : Char) : Nat := c.toNat - '0'.toNat

/-- Match `Race\sDate:(\d{1,2})-(\d{2})-(\d{2})` at the current position and
return the `(mo, dd, yy)` groups.  The month quantifier is greedy: when two
digits follow, backtracking to one digit cannot succeed because the next
required character is a dash, so the two-digit reading is forced. -/
def raceDateCoreAt (r : List Char) : Option (Nat × Nat × Nat) :=
  match r with
  | 'R' :: 'a' :: 'c' :: 'e' :: w :: rest =>
      if isSpaceChar w then
        match dropLit "Date:".data rest with
        | none => none
        | some r2 =>
            match r2 with
            | d1 :: d2 :: r3 =>
                if isDigitChar d1 then
                  if isDigitChar d2 then
                    match r3 with
                    | '-' :: e1 :: e2 :: '-' :: y1 :: y2 :: _ =>
                        if isDigitChar e1 && isDigitChar e2 && isDigitChar y1
                            && isDigitChar y2 then
                          some (10 * digitVal d1 + digitVal d2,
                                10 * digitVal e1 + digitVal e2,
                                10 * digitVal y1 + digitVal y2)
                        else none
                    | _ => none
                  else if d2 = '-' then
                    match r3 with
                    | e1 :: e2 :: '-' :: y1 :: y2 :: _ =>
                        if isDigitChar e1 && isDigitChar e2 && isDigitChar y1
                            && isDigitChar y2 then
                          some (digitVal d1,
                                10 * digitVal e1 + digitVal e2,
                                10 * digitVal y1 + digitVal y2)
                        else none
                    | _ => none
                  else none
                else none
            | _ => none
      else none
  | _ => none

/-- Leftmost match of `\s*Race\sDate:(\d{1,2})-(\d{2})-(\d{2})\s*` in `s`,
returning the groups.  The nullable `\s*` affixes do not change whether a
match exists nor which groups the leftmost match yields. -/
def findRaceDate (s : List Char) : Option (Nat × Nat × Nat) :=
  ((List.range (s.length + 1)).filterMap fun p => raceDateCoreAt (s.drop p)).head?

/-- Length of a month, as validated by `datetime.date`. -/
def daysInMonth (y m : Nat) : Nat :=
  if m = 2 then (if y % 4 = 0 && (y % 100 ≠ 0 || y % 400 = 0) then 29 else 28)
  else if m = 4 || m = 6 || m = 9 || m = 11 then 30
  else 31

/-- The range checks of the `datetime.date` constructor. -/
def isValidDate (y m d : Nat) : Bool :=
  1 ≤ m && m ≤ 12 && 1 ≤ d && d ≤ daysInMonth y m

/-- Embedding of `CompuScore.get_race_date`: recover the race date from the downloaded
page, raising `AttributeError` when either search comes back `None` (the
code calls `.group` on the result unconditionally). -/
def get_race_date (html : String) : Except PyErr Date :=
  let txt? : Except PyErr (List Char) :=
    match h3Search html.data with
    | some g => Except.ok g
    | none =>
        match literalDateSearch html.data with
        | some m => Except.ok m
        | none => Except.error PyErr.attributeError
  match txt? with
  | Except.error e => Except.error e
  | Except.ok txt =>
      match findRaceDate txt with
      | none => Except.error PyErr.attributeError
      | some (mo, dd, yy) =>
          if isValidDate (2000 + yy) mo dd then
            Except.ok ⟨2000 + yy, mo, dd⟩
          else Except.error PyErr.valueError

/-- Embedding of `CompuScore.race_date_in_range`: compare the recovered race date with
the search window; an exception in `get_race_date` propagates. -/
def race_date_in_range (sd ed : Date) (html : String) : Except PyErr Bool :=
  match get_race_date html with
  | Except.error e => Except.error e
  | Except.ok d => Except.ok (Date.leB sd d && Date.leB d ed)

/-!
Correspondence lemmas for the regex engine: membership in `consume`/`seqC`
is a decomposition of the input, and `reSearch` is an existential over
starting positions.
-/

theorem eqCI_comm (a b : Char) : eqCI a b = eqCI b a := by
  simp [eqCI, eq_comm]

theorem dropLit_eq_some {p s r : List Char} :
    dropLit p s = some r ↔ s = p ++ r := by
  induction p generalizing s with
  | nil => simp [dropLit]
  | cons a as ih =>
      cases s with
      | nil => simp [dropLit]
      | cons c cs =>
          simp only [dropLit]
          by_cases h : a = c
          · subst h
            rw [if_pos rfl, ih]
            simp
          · rw [if_neg h]
            simp only [List.cons_append, List.cons.injEq]
            constructor
            · intro hh
              cases hh
            · rintro ⟨hc, _⟩
              exact absurd hc.symm h

theorem dropLitCI_eq_some {p s r : List Char} :
    dropLitCI p s = some r ↔ ∃ t, s = t ++ r ∧ strEqCI t p = true := by
  induction p generalizing s with
  | nil =>
      simp only [dropLitCI, Option.some.injEq]
      constructor
      · intro h
        exact ⟨[], by simp [h], rfl⟩
      · rintro ⟨t, hs, ht⟩
        cases t with
        | nil => simpa using hs
        | cons x xs => simp [strEqCI] at ht
  | cons a as ih =>
      cases s with
      | nil =>
          constructor
          · intro h
            simp [dropLitCI] at h
          · rintro ⟨t, hs, ht⟩
            cases t with
            | nil => simp [strEqCI] at ht
            | cons x xs => simp at hs
      | cons c cs =>
          simp only [dropLitCI]
          by_cases h : eqCI a c = true
          · rw [if_pos h, ih]
            constructor
            · rintro ⟨t, hs, ht⟩
              refine ⟨c :: t, by simp [hs], ?_⟩
              have hca : eqCI c a = true := by rw [eqCI_comm]; exact h
              simp [strEqCI, ht, hca]
            · rintro ⟨t, hs, ht⟩
              cases t with
              | nil => simp [strEqCI] at ht
              | cons x xs =>
                  simp only [List.cons_append, List.cons.injEq] at hs
                  obtain ⟨hx, hcs⟩ := hs
                  subst hx
                  simp only [strEqCI, Bool.and_eq_true] at ht
                  exact ⟨xs, hcs, ht.2⟩
          · rw [if_neg h]
            constructor
            · intro hh
              cases hh
            · rintro ⟨t, hs, ht⟩
              cases t with
              | nil => simp [strEqCI] at ht
              | cons x xs =>
                  simp only [List.cons_append, List.cons.injEq] at hs
                  obtain ⟨hx, _⟩ := hs
                  subst hx
                  simp only [strEqCI, Bool.and_eq_true] at ht
                  exact absurd (by rw [eqCI_comm]; exact ht.1) h

theorem strEqCI_length {t p : List Char} (h : strEqCI t p = true) :
    t.length = p.length := by
  induction t generalizing p with
  | nil =>
      cases p with
      | nil => rfl
      | cons b bs => simp [strEqCI] at h
  | cons a as ih =>
      cases p with
      | nil => simp [strEqCI] at h
      | cons b bs =>
          simp only [strEqCI, Bool.and_eq_true] at h
          simp [ih h.2]

theorem lastFlag_eq_endFlag (s : List Char) : lastFlag s = endFlag false s := rfl

theorem endFlag_append (pre : Bool) (a b : List Char) :
    endFlag pre (a ++ b) = endFlag (endFlag pre a) b := by
  rcases List.eq_nil_or_concat b with rfl | ⟨bs, c, rfl⟩
  · simp [endFlag]
  · rw [List.concat_eq_append, ← List.append_assoc]
    simp [endFlag, List.getLast?_concat]

theorem lastFlag_append (a b : List Char) :
    lastFlag (a ++ b) = endFlag (lastFlag a) b := by
  rw [lastFlag_eq_endFlag, lastFlag_eq_endFlag, endFlag_append]

theorem take_len_append (cs r : List Char) : (cs ++ r).take cs.length = cs := by
  simp

theorem consume_lit_mem {cs : List Char} {prev b : Bool} {s r : List Char} :
    (b, r) ∈ consume (.lit cs) prev s ↔ s = cs ++ r ∧ b = endFlag prev cs := by
  simp only [consume]
  cases h : dropLit cs s with
  | none =>
      constructor
      · intro hmem
        exact absurd hmem (List.not_mem_nil _)
      · rintro ⟨hs, _⟩
        rw [hs, dropLit_eq_some.mpr rfl] at h
        cases h
  | some r2 =>
      have hs : s = cs ++ r2 := dropLit_eq_some.mp h
      subst hs
      rw [take_len_append]
      simp only [List.mem_singleton, Prod.mk.injEq]
      constructor
      · rintro ⟨hb, hr⟩
        subst hr
        exact ⟨rfl, hb⟩
      · rintro ⟨hs2, hb⟩
        exact ⟨hb, (List.append_cancel_left hs2.symm)⟩

theorem consume_litCI_mem {cs : List Char} {prev b : Bool} {s r : List Char} :
    (b, r) ∈ consume (.litCI cs) prev s ↔
      ∃ t, s = t ++ r ∧ strEqCI t cs = true ∧ b = endFlag prev t := by
  simp only [consume]
  cases h : dropLitCI cs s with
  | none =>
      constructor
      · intro hmem
        exact absurd hmem (List.not_mem_nil _)
      · rintro ⟨t, hs, ht, _⟩
        rw [hs, dropLitCI_eq_some.mpr ⟨t, rfl, ht⟩] at h
        cases h
  | some r2 =>
      obtain ⟨t, hs, ht⟩ := dropLitCI_eq_some.mp h
      subst hs
      have hlen : t.length = cs.length := strEqCI_length ht
      rw [← hlen, take_len_append]
      simp only [List.mem_singleton, Prod.mk.injEq]
      constructor
      · rintro ⟨hb, hr⟩
        subst hr
        exact ⟨t, rfl, ht, hb⟩
      · rintro ⟨u, hs2, hu, hb⟩
        have hul : u.length = t.length := by
          rw [strEqCI_length hu, hlen]
        obtain ⟨hut, hr⟩ := List.append_inj hs2.symm (by rw [hul])
        subst hut
        exact ⟨hb, hr⟩

theorem consume_altLit_eq (alts : List (List Char)) (prev : Bool) (s : List Char) :
    consume (.altLit alts) prev s = alts.flatMap fun a => consume (.lit a) prev s := rfl

theorem consume_altLitCI_eq (alts : List (List Char)) (prev : Bool) (s : List Char) :
    consume (.altLitCI alts) prev s = alts.flatMap fun a => consume (.litCI a) prev s := rfl

theorem consume_altLit_mem {alts : List (List Char)} {prev b : Bool} {s r : List Char} :
    (b, r) ∈ consume (.altLit alts) prev s ↔
      ∃ a ∈ alts, s = a ++ r ∧ b = endFlag prev a := by
  rw [consume_altLit_eq]
  simp only [List.mem_flatMap, consume_lit_mem]

theorem consume_altLitCI_mem {alts : List (List Char)} {prev b : Bool} {s r : List Char} :
    (b, r) ∈ consume (.altLitCI alts) prev s ↔
      ∃ a ∈ alts, ∃ t, s = t ++ r ∧ strEqCI t a = true ∧ b = endFlag prev t := by
  rw [consume_altLitCI_eq]
  simp only [List.mem_flatMap, consume_litCI_mem]

theorem consume_anyNN_mem {prev b : Bool} {s r : List Char} :
    (b, r) ∈ consume .anyNN prev s ↔
      ∃ c, s = c :: r ∧ c ≠ '\n' ∧ b = isWordChar c := by
  cases s with
  | nil => simp [consume]
  | cons c cs =>
      simp only [consume]
      by_cases h : c = '\n'
      · subst h
        simp
      · rw [if_neg h]
        simp only [List.mem_singleton, Prod.mk.injEq, List.cons.injEq]
        constructor
        · rintro ⟨hb, hr⟩
          exact ⟨c, ⟨rfl, hr.symm⟩, h, hb⟩
        · rintro ⟨d, ⟨hd, hr⟩, _, hb⟩
          subst hd
          exact ⟨hb, hr.symm⟩

theorem all_take_of_le_takeWhile {p : Char → Bool} :
    ∀ {s : List Char} {k : Nat}, k ≤ (s.takeWhile p).length →
      (s.take k).all p = true := by
  intro s
  induction s with
  | nil => intro k hk; simp at hk; simp [hk]
  | cons c cs ih =>
      intro k hk
      by_cases hc : p c
      · cases k with
        | zero => simp
        | succ j =>
            rw [List.takeWhile_cons_of_pos hc] at hk
            simp only [List.length_cons, Nat.succ_le_succ_iff] at hk
            simp [hc, ih hk]
      · rw [List.takeWhile_cons_of_neg hc] at hk
        simp at hk
        simp [hk]

theorem takeWhile_append_all {p : Char → Bool} {t : List Char} (r : List Char)
    (h : t.all p = true) : (t ++ r).takeWhile p = t ++ r.takeWhile p := by
  induction t with
  | nil => simp
  | cons c cs ih =>
      simp only [List.all_cons, Bool.and_eq_true] at h
      simp [List.takeWhile_cons_of_pos h.1, ih h.2]

theorem consume_many_mem {p : Char → Bool} {prev b : Bool} {s r : List Char} :
    (b, r) ∈ consume (.manyCls p) prev s ↔
      ∃ t, s = t ++ r ∧ t.all p = true ∧ b = endFlag prev t := by
  simp only [consume, List.mem_map, List.mem_range]
  constructor
  · rintro ⟨k, hk, hpair⟩
    obtain ⟨hb, hr⟩ := Prod.mk.injEq .. ▸ hpair
    refine ⟨s.take k, ?_, ?_, hb.symm⟩
    · rw [← hr]
      exact (List.take_append_drop k s).symm
    · exact all_take_of_le_takeWhile (Nat.lt_succ_iff.mp hk)
  · rintro ⟨t, hs, ht, hb⟩
    refine ⟨t.length, ?_, ?_⟩
    · rw [hs, takeWhile_append_all r ht]
      simp only [List.length_append]
      omega
    · rw [hs, take_len_append, List.drop_left, hb]

theorem consume_many1_mem {p : Char → Bool} {prev b : Bool} {s r : List Char} :
    (b, r) ∈ consume (.many1Cls p) prev s ↔
      ∃ t, s = t ++ r ∧ t ≠ [] ∧ t.all p = true ∧ b = endFlag prev t := by
  simp only [consume, List.mem_map, List.mem_range]
  constructor
  · rintro ⟨k, hk, hpair⟩
    obtain ⟨hb, hr⟩ := Prod.mk.injEq .. ▸ hpair
    refine ⟨s.take (k + 1), ?_, ?_, ?_, hb.symm⟩
    · rw [← hr]
      exact (List.take_append_drop (k + 1) s).symm
    · have : k + 1 ≤ s.length := by
        have h1 : (s.takeWhile p).length ≤ s.length := by
          simpa using (List.takeWhile_sublist p).length_le
        omega
      intro hnil
      have := List.length_take (k + 1) s
      rw [hnil] at this
      simp at this
      omega
    · exact all_take_of_le_takeWhile (Nat.succ_le_of_lt hk)
  · rintro ⟨t, hs, hne, ht, hb⟩
    have hlen : 1 ≤ t.length := by
      cases t with
      | nil => exact absurd rfl hne
      | cons x xs => simp
    refine ⟨t.length - 1, ?_, ?_⟩
    · rw [hs, takeWhile_append_all r ht]
      simp only [List.length_append]
      omega
    · have h1 : t.length - 1 + 1 = t.length := by omega
      rw [h1, hs, take_len_append, List.drop_left, hb]

theorem consume_wordB_mem {prev b : Bool} {s r : List Char} :
    (b, r) ∈ consume .wordB prev s ↔
      b = prev ∧ r = s ∧ prev ≠ headIsWord s := by
  simp only [consume]
  by_cases h : prev ≠ headIsWord s
  · rw [if_pos h]
    simp only [List.mem_singleton, Prod.mk.injEq]
    tauto
  · rw [if_neg h]
    simp only [List.not_mem_nil, false_iff]
    tauto

theorem seqC_nil_mem {prev b : Bool} {s r : List Char} :
    (b, r) ∈ seqC [] prev s ↔ b = prev ∧ r = s := by
  simp [seqC, Prod.mk.injEq]

theorem seqC_cons_mem {x : RE} {rs : List RE} {prev b : Bool} {s r : List Char} :
    (b, r) ∈ seqC (x :: rs) prev s ↔
      ∃ b1 s1, (b1, s1) ∈ consume x prev s ∧ (b, r) ∈ seqC rs b1 s1 := by
  simp only [seqC, List.mem_flatMap]
  constructor
  · rintro ⟨⟨b1, s1⟩, h1, h2⟩
    exact ⟨b1, s1, h1, h2⟩
  · rintro ⟨b1, s1, h1, h2⟩
    exact ⟨(b1, s1), h1, h2⟩

theorem seqC_append_mem {rs1 rs2 : List RE} {prev b : Bool} {s r : List Char} :
    (b, r) ∈ seqC (rs1 ++ rs2) prev s ↔
      ∃ b1 s1, (b1, s1) ∈ seqC rs1 prev s ∧ (b, r) ∈ seqC rs2 b1 s1 := by
  induction rs1 generalizing prev s with
  | nil =>
      simp only [List.nil_append, seqC_nil_mem]
      constructor
      · intro h
        exact ⟨prev, s, ⟨rfl, rfl⟩, h⟩
      · rintro ⟨b1, s1, ⟨hb, hs⟩, h⟩
        subst hb
        subst hs
        exact h
  | cons x xs ih =>
      simp only [List.cons_append, seqC_cons_mem, ih]
      constructor
      · rintro ⟨b1, s1, h1, b2, s2, h2, h3⟩
        exact ⟨b2, s2, ⟨b1, s1, h1, h2⟩, h3⟩
      · rintro ⟨b2, s2, ⟨b1, s1, h1, h2⟩, h3⟩
        exact ⟨b1, s1, h1, b2, s2, h2, h3⟩

theorem matchesAt_iff {rs : List RE} {prev : Bool} {s : List Char} :
    matchesAt rs prev s = true ↔ ∃ b r, (b, r) ∈ seqC rs prev s := by
  unfold matchesAt
  cases h : seqC rs prev s with
  | nil => simp [h]
  | cons y ys =>
      simp only [h, List.isEmpty_cons, Bool.not_false, true_iff]
      exact ⟨y.1, y.2, by simp⟩

theorem searchAux_iff {rs : List RE} :
    ∀ {s : List Char} {prev : Bool},
      searchAux rs prev s = true ↔
        ∃ pre suf, s = pre ++ suf ∧ matchesAt rs (endFlag prev pre) suf = true := by
  intro s
  induction s with
  | nil =>
      intro prev
      simp only [searchAux]
      constructor
      · intro h
        exact ⟨[], [], rfl, by simpa [endFlag] using h⟩
      · rintro ⟨pre, suf, hs, hm⟩
        obtain ⟨rfl, rfl⟩ : pre = [] ∧ suf = [] := by
          simpa using hs.symm
        simpa [endFlag] using hm
  | cons c cs ih =>
      intro prev
      simp only [searchAux, Bool.or_eq_true, ih]
      constructor
      · rintro (h | ⟨pre, suf, hs, hm⟩)
        · exact ⟨[], c :: cs, rfl, by simpa [endFlag] using h⟩
        · refine ⟨c :: pre, suf, by simp [hs], ?_⟩
          have : endFlag prev (c :: pre) = endFlag (isWordChar c) pre := by
            rw [show (c :: pre : List Char) = [c] ++ pre from rfl,
               endFlag_append]
            rfl
          rw [this]
          exact hm
      · rintro ⟨pre, suf, hs, hm⟩
        cases pre with
        | nil =>
            left
            simp only [List.nil_append] at hs
            subst hs
            simpa [endFlag] using hm
        | cons d ds =>
            right
            simp only [List.cons_append, List.cons.injEq] at hs
            obtain ⟨hd, hcs⟩ := hs
            subst hd
            refine ⟨ds, suf, hcs, ?_⟩
            have : endFlag prev (c :: ds) = endFlag (isWordChar c) ds := by
              rw [show (c :: ds : List Char) = [c] ++ ds from rfl,
                 endFlag_append]
              rfl
            rw [← this]
            exact hm

theorem reSearch_iff {rs : List RE} {str : String} :
    reSearch rs str = true ↔
      ∃ pre suf, str.data = pre ++ suf ∧ matchesAt rs (lastFlag pre) suf = true := by
  unfold reSearch
  rw [searchAux_iff]
  constructor
  · rintro ⟨pre, suf, hs, hm⟩
    exact ⟨pre, suf, hs, by rwa [lastFlag_eq_endFlag]⟩
  · rintro ⟨pre, suf, hs, hm⟩
    exact ⟨pre, suf, hs, by rwa [← lastFlag_eq_endFlag]⟩

/-!
Characterization of the membership pattern of `rr/common.py`: the compiled
regex `\b(?:F|L)\s+(?:L|F)\b` matches a line iff the line contains an
occurrence of first-or-last name, at least one whitespace character, and
last-or-first name, adjacent in that order, with word boundaries at the two
outer ends (all case-insensitively).
-/

/-- What the compiled pattern of `load_membership_list` recognizes, as a
decomposition of the line. -/
def AdjacentNameMatch (f l : String) (s : List Char) : Prop :=
  ∃ pre t1 ws t2 post,
    s = pre ++ (t1 ++ (ws ++ (t2 ++ post))) ∧
    (strEqCI t1 f.data = true ∨ strEqCI t1 l.data = true) ∧
    ws ≠ [] ∧ ws.all isSpaceChar = true ∧
    (strEqCI t2 l.data = true ∨ strEqCI t2 f.data = true) ∧
    lastFlag pre ≠ headIsWord (t1 ++ (ws ++ (t2 ++ post))) ∧
    lastFlag (pre ++ (t1 ++ (ws ++ t2))) ≠ headIsWord post

theorem fname_lname_search_iff (f l line : String) :
    reSearch (fname_lname_regex (f, l)) line = true ↔
      AdjacentNameMatch f l line.data := by
  rw [reSearch_iff]
  constructor
  · rintro ⟨pre, suf, hs, hm⟩
    rw [matchesAt_iff] at hm
    obtain ⟨b, r, hmem⟩ := hm
    simp only [fname_lname_regex] at hmem
    rw [seqC_cons_mem] at hmem
    obtain ⟨b1, s1, h1, hmem⟩ := hmem
    rw [consume_wordB_mem] at h1
    obtain ⟨hb1, hs1, hbdry1⟩ := h1
    subst hb1
    subst hs1
    rw [seqC_cons_mem] at hmem
    obtain ⟨b2, s2, h2, hmem⟩ := hmem
    rw [consume_altLitCI_mem] at h2
    obtain ⟨a, ha, t1, hsuf, ht1, hb2⟩ := h2
    subst hb2
    rw [seqC_cons_mem] at hmem
    obtain ⟨b3, s3, h3, hmem⟩ := hmem
    rw [consume_many1_mem] at h3
    obtain ⟨ws, hs2, hwsne, hwsall, hb3⟩ := h3
    subst hb3
    rw [seqC_cons_mem] at hmem
    obtain ⟨b4, s4, h4, hmem⟩ := hmem
    rw [consume_altLitCI_mem] at h4
    obtain ⟨a2, ha2, t2, hs3, ht2, hb4⟩ := h4
    subst hb4
    rw [seqC_cons_mem] at hmem
    obtain ⟨b5, s5, h5, _⟩ := hmem
    rw [consume_wordB_mem] at h5
    obtain ⟨_, _, hbdry2⟩ := h5
    refine ⟨pre, t1, ws, t2, s4, ?_, ?_, hwsne, hwsall, ?_, ?_, ?_⟩
    · rw [hs, hsuf, hs2, hs3]
    · simp only [List.mem_cons, List.not_mem_nil, or_false] at ha
      rcases ha with rfl | rfl
      · exact Or.inl ht1
      · exact Or.inr ht1
    · simp only [List.mem_cons, List.not_mem_nil, or_false] at ha2
      rcases ha2 with rfl | rfl
      · exact Or.inl ht2
      · exact Or.inr ht2
    · rw [hsuf, hs2, hs3] at hbdry1
      exact hbdry1
    · rw [lastFlag_append, endFlag_append, endFlag_append]
      exact hbdry2
  · rintro ⟨pre, t1, ws, t2, post, hs, ht1, hwsne, hwsall, ht2, hbdry1, hbdry2⟩
    refine ⟨pre, t1 ++ (ws ++ (t2 ++ post)), hs, ?_⟩
    rw [matchesAt_iff]
    refine ⟨endFlag (endFlag (endFlag (lastFlag pre) t1) ws) t2, post, ?_⟩
    simp only [fname_lname_regex]
    rw [seqC_cons_mem]
    refine ⟨lastFlag pre, _, consume_wordB_mem.mpr ⟨rfl, rfl, hbdry1⟩, ?_⟩
    rw [seqC_cons_mem]
    refine ⟨endFlag (lastFlag pre) t1, ws ++ (t2 ++ post),
      consume_altLitCI_mem.mpr ?_, ?_⟩
    · rcases ht1 with h | h
      · exact ⟨f.data, by simp, t1, rfl, h, rfl⟩
      · exact ⟨l.data, by simp, t1, rfl, h, rfl⟩
    rw [seqC_cons_mem]
    refine ⟨_, t2 ++ post,
      consume_many1_mem.mpr ⟨ws, rfl, hwsne, hwsall, rfl⟩, ?_⟩
    rw [seqC_cons_mem]
    refine ⟨endFlag (endFlag (endFlag (lastFlag pre) t1) ws) t2, post,
      consume_altLitCI_mem.mpr ?_, ?_⟩
    · rcases ht2 with h | h
      · exact ⟨l.data, by simp, t2, rfl, h, rfl⟩
      · exact ⟨f.data, by simp, t2, rfl, h, rfl⟩
    rw [seqC_cons_mem]
    refine ⟨_, post, consume_wordB_mem.mpr ⟨rfl, rfl, ?_⟩,
      seqC_nil_mem.mpr ⟨rfl, rfl⟩⟩
    rw [← endFlag_append, ← endFlag_append, ← lastFlag_append]
    simpa [List.append_assoc] using hbdry2

/-!
Characterizations of the CompuScore name patterns: `\.FIRST\b` matches iff
the line contains a literal dot immediately followed by the first name with
a word boundary after it; `\bLAST\b` matches iff the line contains the last
name bounded by word boundaries on both sides (case-insensitively).
-/

/-- What `'\.' + first_name + '\b'` recognizes, as a decomposition. -/
def DotFirstMatch (first : String) (s : List Char) : Prop :=
  ∃ pre t post,
    s = pre ++ ('.' :: (t ++ post)) ∧
    strEqCI t first.data = true ∧
    lastFlag (pre ++ ('.' :: t)) ≠ headIsWord post

/-- What `'\b' + name + '\b'` recognizes, as a decomposition. -/
def BoundedNameMatch (name : String) (s : List Char) : Prop :=
  ∃ pre t post,
    s = pre ++ (t ++ post) ∧
    strEqCI t name.data = true ∧
    lastFlag pre ≠ headIsWord (t ++ post) ∧
    lastFlag (pre ++ t) ≠ headIsWord post

theorem dot_first_search_iff (first line : String) :
    reSearch (csrr_first_name_regex first) line = true ↔
      DotFirstMatch first line.data := by
  rw [reSearch_iff]
  constructor
  · rintro ⟨pre, suf, hs, hm⟩
    rw [matchesAt_iff] at hm
    obtain ⟨b, r, hmem⟩ := hm
    simp only [csrr_first_name_regex] at hmem
    rw [seqC_cons_mem] at hmem
    obtain ⟨b1, s1, h1, hmem⟩ := hmem
    rw [consume_lit_mem] at h1
    obtain ⟨hsuf, hb1⟩ := h1
    subst hb1
    rw [seqC_cons_mem] at hmem
    obtain ⟨b2, s2, h2, hmem⟩ := hmem
    rw [consume_litCI_mem] at h2
    obtain ⟨t, hs1, ht, hb2⟩ := h2
    subst hb2
    rw [seqC_cons_mem] at hmem
    obtain ⟨b3, s3, h3, _⟩ := hmem
    rw [consume_wordB_mem] at h3
    obtain ⟨_, _, hbdry⟩ := h3
    refine ⟨pre, t, s2, ?_, ht, ?_⟩
    · rw [hs, hsuf, hs1]
      simp
    · rw [show pre ++ ('.' :: t) = pre ++ (['.'] ++ t) by simp,
        lastFlag_append, endFlag_append]
      exact hbdry
  · rintro ⟨pre, t, post, hs, ht, hbdry⟩
    refine ⟨pre, '.' :: (t ++ post), by simpa using hs, ?_⟩
    rw [matchesAt_iff]
    refine ⟨endFlag (endFlag (lastFlag pre) ['.']) t, post, ?_⟩
    simp only [csrr_first_name_regex]
    rw [seqC_cons_mem]
    refine ⟨endFlag (lastFlag pre) ['.'], t ++ post,
      consume_lit_mem.mpr ⟨rfl, rfl⟩, ?_⟩
    rw [seqC_cons_mem]
    refine ⟨endFlag (endFlag (lastFlag pre) ['.']) t, post,
      consume_litCI_mem.mpr ⟨t, rfl, ht, rfl⟩, ?_⟩
    rw [seqC_cons_mem]
    refine ⟨_, post, consume_wordB_mem.mpr ⟨rfl, rfl, ?_⟩,
      seqC_nil_mem.mpr ⟨rfl, rfl⟩⟩
    rw [← endFlag_append, ← lastFlag_append] at *
    simpa using hbdry

theorem bounded_name_search_iff (name line : String) :
    reSearch [.wordB, .litCI name.data, .wordB] line = true ↔
      BoundedNameMatch name line.data := by
  rw [reSearch_iff]
  constructor
  · rintro ⟨pre, suf, hs, hm⟩
    rw [matchesAt_iff] at hm
    obtain ⟨b, r, hmem⟩ := hm
    rw [seqC_cons_mem] at hmem
    obtain ⟨b1, s1, h1, hmem⟩ := hmem
    rw [consume_wordB_mem] at h1
    obtain ⟨hb1, hs1, hbdry1⟩ := h1
    subst hb1
    subst hs1
    rw [seqC_cons_mem] at hmem
    obtain ⟨b2, s2, h2, hmem⟩ := hmem
    rw [consume_litCI_mem] at h2
    obtain ⟨t, hsuf, ht, hb2⟩ := h2
    subst hb2
    rw [seqC_cons_mem] at hmem
    obtain ⟨b3, s3, h3, _⟩ := hmem
    rw [consume_wordB_mem] at h3
    obtain ⟨_, _, hbdry2⟩ := h3
    refine ⟨pre, t, s2, by rw [hs, hsuf], ht, ?_, ?_⟩
    · rw [← hsuf]
      exact hbdry1
    · rw [lastFlag_append]
      exact hbdry2
  · rintro ⟨pre, t, post, hs, ht, hbdry1, hbdry2⟩
    refine ⟨pre, t ++ post, hs, ?_⟩
    rw [matchesAt_iff]
    refine ⟨endFlag (lastFlag pre) t, post, ?_⟩
    rw [seqC_cons_mem]
    refine ⟨lastFlag pre, t ++ post,
      consume_wordB_mem.mpr ⟨rfl, rfl, hbdry1⟩, ?_⟩
    rw [seqC_cons_mem]
    refine ⟨endFlag (lastFlag pre) t, post,
      consume_litCI_mem.mpr ⟨t, rfl, ht, rfl⟩, ?_⟩
    rw [seqC_cons_mem]
    refine ⟨_, post, consume_wordB_mem.mpr ⟨rfl, rfl, ?_⟩,
      seqC_nil_mem.mpr ⟨rfl, rfl⟩⟩
    rw [← lastFlag_append]
    exact hbdry2

/-!
Characterization of the BestRace candidate-URL pattern.  The literal part of
the pattern (where `.` is a wildcard) consumes exactly one character per
pattern character; the day alternation consumes one of the two-character day
tokens; `.*HTM` consumes the rest when it contains `HTM` with no newline
before it.
-/

/-- One character of input per pattern character: a `.` matches anything but
a newline, any other character matches itself. -/
def litDotsEq : List Char → List Char → Bool
  | [], [] => true
  | p :: ps, c :: cs => (if p = '.' then c ≠ '\n' else c = p) && litDotsEq ps cs
  | _, _ => false

theorem litDotsEq_length {p t : List Char} (h : litDotsEq p t = true) :
    t.length = p.length := by
  induction p generalizing t with
  | nil =>
      cases t with
      | nil => rfl
      | cons c cs => simp [litDotsEq] at h
  | cons a as ih =>
      cases t with
      | nil => simp [litDotsEq] at h
      | cons c cs =>
          simp only [litDotsEq, Bool.and_eq_true] at h
          simp [ih h.2]

theorem litDotsEq_self {p : List Char} (h : p.all (fun c => c ≠ '\n') = true) :
    litDotsEq p p = true := by
  induction p with
  | nil => rfl
  | cons a as ih =>
      simp only [List.all_cons, Bool.and_eq_true] at h
      simp only [litDotsEq, Bool.and_eq_true]
      refine ⟨?_, ih h.2⟩
      by_cases ha : a = '.'
      · simp [ha]
      · simp [ha]

theorem seqC_litDots_mem {p : List Char} :
    ∀ {prev b : Bool} {s r : List Char},
      (b, r) ∈ seqC (litDots p) prev s ↔
        ∃ t, s = t ++ r ∧ litDotsEq p t = true ∧ b = endFlag prev t := by
  induction p with
  | nil =>
      intro prev b s r
      simp only [litDots, List.map_nil, seqC_nil_mem]
      constructor
      · rintro ⟨hb, hr⟩
        exact ⟨[], by simp [hr], rfl, by simp [endFlag, hb]⟩
      · rintro ⟨t, hs, ht, hb⟩
        cases t with
        | nil =>
            refine ⟨?_, by simpa using hs.symm⟩
            simp only [endFlag] at hb
            simpa using hb
        | cons x xs => simp [litDotsEq] at ht
  | cons a as ih =>
      intro prev b s r
      simp only [litDots, List.map_cons]
      rw [seqC_cons_mem]
      by_cases ha : a = '.'
      · rw [if_pos ha]
        constructor
        · rintro ⟨b1, s1, h1, h2⟩
          rw [consume_anyNN_mem] at h1
          obtain ⟨c, hs, hc, hb1⟩ := h1
          obtain ⟨t, hs1, ht, hb⟩ := ih.mp h2
          refine ⟨c :: t, by simp [hs, hs1], ?_, ?_⟩
          · simp only [litDotsEq, if_pos ha, Bool.and_eq_true, decide_eq_true_eq]
            exact ⟨hc, ht⟩
          · rw [hb, hb1, show (c :: t : List Char) = [c] ++ t from rfl,
              endFlag_append]
            rfl
        · rintro ⟨t, hs, ht, hb⟩
          cases t with
          | nil => simp [litDotsEq] at ht
          | cons c cs =>
              simp only [litDotsEq, if_pos ha, Bool.and_eq_true,
                decide_eq_true_eq] at ht
              refine ⟨isWordChar c, cs ++ r,
                consume_anyNN_mem.mpr ⟨c, by simp [hs], ht.1, rfl⟩, ?_⟩
              refine ih.mpr ⟨cs, rfl, ht.2, ?_⟩
              rw [hb, show (c :: cs : List Char) = [c] ++ cs from rfl,
                endFlag_append]
              rfl
      · rw [if_neg ha]
        constructor
        · rintro ⟨b1, s1, h1, h2⟩
          rw [consume_lit_mem] at h1
          obtain ⟨hs, hb1⟩ := h1
          obtain ⟨t, hs1, ht, hb⟩ := ih.mp h2
          refine ⟨a :: t, by simp [hs, hs1], ?_, ?_⟩
          · simp only [litDotsEq, if_neg ha, Bool.and_eq_true,
              decide_eq_true_eq]
            exact ⟨trivial, ht⟩
          · rw [hb, hb1, show (a :: t : List Char) = [a] ++ t from rfl,
              endFlag_append]
        · rintro ⟨t, hs, ht, hb⟩
          cases t with
          | nil => simp [litDotsEq] at ht
          | cons c cs =>
              simp only [litDotsEq, if_neg ha, Bool.and_eq_true,
                decide_eq_true_eq] at ht
              obtain ⟨hca, hcs⟩ := ht
              subst hca
              refine ⟨endFlag prev [c], cs ++ r,
                consume_lit_mem.mpr ⟨by simp [hs], rfl⟩, ?_⟩
              refine ih.mpr ⟨cs, rfl, hcs, ?_⟩
              rw [hb, show (c :: cs : List Char) = [c] ++ cs from rfl,
                endFlag_append]

theorem digitChar_inj : ∀ a < 10, ∀ b < 10,
    Nat.digitChar a = Nat.digitChar b → a = b := by
  decide

theorem pad2_inj {m n : Nat} (hm : m ≤ 99) (hn : n ≤ 99) (h : pad2 m = pad2 n) :
    m = n := by
  simp only [pad2, List.cons.injEq, and_true] at h
  have h1 : m / 10 = n / 10 :=
    digitChar_inj _ (by omega) _ (by omega) h.1
  have h2 : m % 10 = n % 10 :=
    digitChar_inj _ (by omega) _ (by omega) h.2
  omega

theorem digitChar_ne_newline (n : Nat) : Nat.digitChar n ≠ '\n' := by
  rcases Nat.lt_or_ge n 16 with h | h
  · interval_cases n <;> decide
  · have hstar : Nat.digitChar n = '*' := by
      unfold Nat.digitChar
      repeat rw [if_neg (by omega)]
    rw [hstar]
    decide

theorem pad2_no_newline (n : Nat) : (pad2 n).all (fun c => c ≠ '\n') = true := by
  simp [pad2, digitChar_ne_newline]

theorem containsSub_iff {pat s : List Char} :
    containsSub pat s = true ↔ ∃ a b, s = a ++ (pat ++ b) := by
  unfold containsSub
  rw [List.any_eq_true]
  constructor
  · rintro ⟨i, _, hpre⟩
    obtain ⟨u, hu⟩ := List.isPrefixOf_iff_prefix.mp hpre
    refine ⟨s.take i, u, ?_⟩
    rw [hu]
    exact (List.take_append_drop i s).symm
  · rintro ⟨a, b, rfl⟩
    refine ⟨a.length, ?_, ?_⟩
    · rw [List.mem_range]
      simp only [List.length_append]
      omega
    · rw [List.drop_left]
      exact List.isPrefixOf_iff_prefix.mpr ⟨b, rfl⟩

theorem bestrace_day_range_mem {sd ed : Date} (h : sd.day ≤ ed.day)
    {x : List Char} :
    x ∈ bestrace_day_range sd ed ↔
      ∃ k, sd.day ≤ k ∧ k ≤ ed.day ∧ x = pad2 k := by
  simp only [bestrace_day_range, List.mem_append, List.mem_map,
    List.mem_singleton]
  constructor
  · rintro (⟨k, hk, rfl⟩ | rfl)
    · rw [List.mem_range'_1] at hk
      exact ⟨k, hk.1, by omega, rfl⟩
    · exact ⟨ed.day, h, Nat.le_refl _, rfl⟩
  · rintro ⟨k, h1, h2, rfl⟩
    by_cases hke : k = ed.day
    · right
      rw [hke]
    · left
      exact ⟨k, List.mem_range'_1.mpr ⟨h1, by omega⟩, rfl⟩

theorem bestrace_head_no_newline (sd : Date) :
    (bestrace_head sd).all (fun c => c ≠ '\n') = true := by
  simp only [bestrace_head, List.all_append, Bool.and_eq_true]
  exact ⟨⟨⟨⟨by decide, pad2_no_newline _⟩, by decide⟩, pad2_no_newline _⟩,
    pad2_no_newline _⟩

theorem bestrace_selects_day_iff (sd ed : Date) (d : Nat) (sfx : String)
    (hday : sd.day ≤ ed.day) (hed : ed.day ≤ 99) (hd : d ≤ 99)
    (hnl : sfx.data.all (fun c => c ≠ '\n') = true)
    (hhtm : containsSub "HTM".data sfx.data = true) :
    (bestrace_selects sd ed (bestrace_url ⟨sd.year, sd.month, d⟩ sfx) = true ↔
      (sd.day ≤ d ∧ d ≤ ed.day)) := by
  have hurl : (bestrace_url ⟨sd.year, sd.month, d⟩ sfx).data =
      bestrace_head sd ++ (pad2 d ++ sfx.data) := by
    simp [bestrace_url, bestrace_head, strftimeY, strftimeM, List.append_assoc]
  unfold bestrace_selects reMatchB
  rw [hurl, matchesAt_iff]
  constructor
  · rintro ⟨b, r, hmem⟩
    unfold bestrace_pattern at hmem
    rw [seqC_append_mem] at hmem
    obtain ⟨b2, s2, hmem1, _⟩ := hmem
    rw [seqC_append_mem] at hmem1
    obtain ⟨b1, s1, hhead, halt⟩ := hmem1
    rw [seqC_litDots_mem] at hhead
    obtain ⟨t, hsplit, hteq, _⟩ := hhead
    have htlen : t.length = (bestrace_head sd).length := litDotsEq_length hteq
    obtain ⟨ht, hs1⟩ := List.append_inj hsplit.symm htlen
    rw [seqC_cons_mem] at halt
    obtain ⟨b2a, s2a, haltc, hnil⟩ := halt
    rw [consume_altLit_mem] at haltc
    obtain ⟨a, hamem, hs1eq, _⟩ := haltc
    obtain ⟨k, hk1, hk2, rfl⟩ := (bestrace_day_range_mem hday).mp hamem
    have heq : pad2 d ++ sfx.data = pad2 k ++ s2a := by
      rw [← hs1, hs1eq]
    obtain ⟨hak, _⟩ := List.append_inj heq rfl
    have hdk : d = k := pad2_inj hd (Nat.le_trans hk2 hed) hak
    omega
  · rintro ⟨h1, h2⟩
    obtain ⟨u, v, hsfx⟩ := containsSub_iff.mp hhtm
    have huall : u.all (fun c => c ≠ '\n') = true := by
      rw [hsfx] at hnl
      simp only [List.all_append, Bool.and_eq_true] at hnl
      exact hnl.1
    refine ⟨endFlag (endFlag (endFlag (endFlag false (bestrace_head sd))
      (pad2 d)) u) ['H', 'T', 'M'], v, ?_⟩
    unfold bestrace_pattern
    rw [seqC_append_mem]
    refine ⟨endFlag (endFlag false (bestrace_head sd)) (pad2 d),
      sfx.data, ?_, ?_⟩
    · rw [seqC_append_mem]
      refine ⟨endFlag false (bestrace_head sd), pad2 d ++ sfx.data,
        seqC_litDots_mem.mpr ⟨bestrace_head sd, rfl,
          litDotsEq_self (bestrace_head_no_newline sd), rfl⟩, ?_⟩
      rw [seqC_cons_mem]
      refine ⟨_, sfx.data, consume_altLit_mem.mpr
        ⟨pad2 d, (bestrace_day_range_mem hday).mpr ⟨d, h1, h2, rfl⟩, rfl, rfl⟩,
        seqC_nil_mem.mpr ⟨rfl, rfl⟩⟩
    · rw [seqC_cons_mem]
      refine ⟨endFlag (endFlag (endFlag false (bestrace_head sd)) (pad2 d)) u,
        "HTM".data ++ v, consume_many_mem.mpr ⟨u, hsfx, huall, rfl⟩, ?_⟩
      rw [seqC_cons_mem]
      refine ⟨_, v, consume_lit_mem.mpr ⟨rfl, rfl⟩,
        seqC_nil_mem.mpr ⟨rfl, ?_⟩⟩
      rfl

/-!
Spec-side predicates, written from the wording of the claims (not from the
code), for comparison with the embedded code.
-/

/-- The matching criterion as the claim words it: the line contains the
first name and the last name as separately word-bounded substrings
(case-insensitively). -/
def claimSeparatelyBounded (f l line : String) : Bool :=
  reSearch [.wordB, .litCI f.data, .wordB] line &&
  reSearch [.wordB, .litCI l.data, .wordB] line

/-- The banner stop test as the claim words it: the first line matching
`^\s*1\b` (trimmed content begins with the rank `1` followed by a word
boundary). -/
def claimBannerStop (line : String) : Bool :=
  reMatchB [.manyCls isSpaceChar, .lit ['1'], .wordB] line

/-- The banner as the claim words it: the leading run of lines strictly
before the first line matching `^\s*1\b`. -/
def claimBanner (lines : List String) : String :=
  String.join ((lines.takeWhile fun l => !claimBannerStop l).map (· ++ "\n"))

/-- Helper: folding string concatenation from an initial accumulator. -/
theorem foldl_append_init (init : String) (xs : List String) :
    List.foldl (fun r s => r ++ s) init xs =
      init ++ List.foldl (fun r s => r ++ s) "" xs := by
  induction xs generalizing init with
  | nil => simp
  | cons x xs ih =>
      simp only [List.foldl_cons]
      rw [ih (init ++ x), ih ("" ++ x)]
      simp [String.append_assoc]

/-- Helper: `String.join` of a cons. -/
theorem string_join_cons (x : String) (xs : List String) :
    String.join (x :: xs) = x ++ String.join xs := by
  simp only [String.join, List.foldl_cons]
  rw [foldl_append_init ("" ++ x)]
  simp

/-- Helper: the accumulator loop of `parse_banner` is a `takeWhile`. -/
theorem parse_banner_go_spec (lines : List String) :
    ∀ acc : String,
      parse_banner_go acc lines =
        acc ++ String.join ((lines.takeWhile fun l => !bannerStop l).map (· ++ "\n")) := by
  induction lines with
  | nil =>
      intro acc
      simp [parse_banner_go, String.join]
  | cons l rest ih =>
      intro acc
      by_cases h : bannerStop l = true
      · simp [parse_banner_go, h, List.takeWhile_cons, String.join]
      · have hb : bannerStop l = false := by
          exact eq_false_of_ne_true h
        simp only [parse_banner_go, hb, Bool.false_eq_true, if_false,
          List.takeWhile_cons, Bool.not_false, if_true, List.map_cons]
        rw [ih (acc ++ l ++ "\n"), string_join_cons]
        simp [String.append_assoc]

/-!
Claim theorems.
-/

/-- C1, counterexample: the claimed criterion — the line contains first and
last name as separately word-bounded substrings — holds for member
`(Ed, Ford)` on the line `Ed and Ford finished`, yet the code's matcher
returns `False` there (the compiled pattern requires the two names to be
adjacent, separated by whitespace only), so the claimed iff fails. -/
theorem claim1_counterexample :
    claimSeparatelyBounded "Ed" "Ford" "Ed and Ford finished" = true ∧
    match_against_membership [("Ed", "Ford")] "Ed and Ford finished" = false := by
  constructor
  · decide
  · decide

/-- C1, amended: `match_against_membership` returns true iff some roster
member's names occur in the line adjacently — first-or-last name, then at
least one whitespace character, then last-or-first name — with word
boundaries at the two outer ends, case-insensitively; in particular, for
roster member `(Ed, Ford)` it returns false on a line containing
`... New Bedford, NJ ...` and true on a line containing
`... Ed Ford finished 23rd ...`. -/
theorem claim1_amended :
    (∀ (df : List (String × String)) (line : String),
      match_against_membership df line = true ↔
        ∃ m ∈ df, AdjacentNameMatch m.1 m.2 line.data) ∧
    match_against_membership [("Ed", "Ford")] "... New Bedford, NJ ..." = false ∧
    match_against_membership [("Ed", "Ford")] "... Ed Ford finished 23rd ..." = true := by
  refine ⟨fun df line => ?_, by decide, by decide⟩
  simp only [match_against_membership, List.any_eq_true]
  constructor
  · rintro ⟨m, hm, hsearch⟩
    obtain ⟨f, l⟩ := m
    exact ⟨(f, l), hm, (fname_lname_search_iff f l line).mp hsearch⟩
  · rintro ⟨m, hm, hmatch⟩
    obtain ⟨f, l⟩ := m
    exact ⟨(f, l), hm, (fname_lname_search_iff f l line).mpr hmatch⟩

/-- C2, counterexample: on the input consisting of the single line
`1 John Smith` (rank 1 at column zero), the claimed stop rule `^\s*1\b`
makes the banner empty, but `parse_banner` — whose stop test is
`re.match('\s+1', line)`, requiring at least one leading whitespace
character — includes the line in the banner. -/
theorem claim2_counterexample :
    parse_banner ["1 John Smith"] = "1 John Smith\n" ∧
    claimBanner ["1 John Smith"] = "" ∧
    parse_banner ["1 John Smith"] ≠ claimBanner ["1 John Smith"] := by
  refine ⟨by decide, by decide, by decide⟩

/-- C2, amended: `parse_banner` returns exactly the leading run of lines
strictly before the first line matching `\s+1` (one or more whitespace
characters and then the literal `1`, with nothing required after the `1`);
on `["  Place Name", "  1 John Smith", "  2 Jane Doe"]` the banner is
exactly the single line `  Place Name` and never includes the
`  1 John Smith` line. -/
theorem claim2_amended :
    (∀ lines : List String,
      parse_banner lines =
        String.join ((lines.takeWhile fun l => !bannerStop l).map (· ++ "\n"))) ∧
    parse_banner ["  Place Name", "  1 John Smith", "  2 Jane Doe"] =
      "  Place Name\n" := by
  constructor
  · intro lines
    have h := parse_banner_go_spec lines ""
    unfold parse_banner
    rw [h]
    simp
  · decide

/-- C3, counterexample: for startDate 2012-11-28 and stopDate 2012-12-03
(a window crossing a month boundary), the URL embedding 2012-11-28 — the
start date itself, inside the window — is not selected: the day alternation
is built from `range(start.day, stop.day)`, which is empty here, plus
`stop.day`, so only day 03 of the start month is accepted. -/
theorem claim3_counterexample :
    Date.leB ⟨2012, 11, 28⟩ ⟨2012, 11, 28⟩ = true ∧
    Date.leB ⟨2012, 11, 28⟩ ⟨2012, 12, 3⟩ = true ∧
    bestrace_selects ⟨2012, 11, 28⟩ ⟨2012, 12, 3⟩
      (bestrace_url ⟨2012, 11, 28⟩ "AB.HTM") = false := by
  refine ⟨by decide, by decide, by decide⟩

/-- C3, amended: when start and stop date lie in the same month of the same
year with `start.day ≤ stop.day`, the pattern selects a canonical BestRace
URL iff its embedded day lies in `[start.day, stop.day]` inclusive (the day
sub-pattern being a literal alternation of exactly the zero-padded day
numbers in that range); both endpoint days are included and a day one
outside either bound is excluded — with start = stop = 2012-12-02 the URL
embedding `1202` matches while `1201` and `1203` do not. -/
theorem claim3_amended :
    (∀ (sd ed : Date) (d : Nat) (sfx : String),
      sd.year = ed.year → sd.month = ed.month → sd.day ≤ ed.day →
      ed.day ≤ 99 → d ≤ 99 →
      sfx.data.all (fun c => c ≠ '\n') = true →
      containsSub "HTM".data sfx.data = true →
      (bestrace_selects sd ed (bestrace_url ⟨sd.year, sd.month, d⟩ sfx) = true ↔
        (sd.day ≤ d ∧ d ≤ ed.day))) ∧
    (∀ sd ed : Date, sd.day ≤ ed.day → ∀ x : List Char,
      (x ∈ bestrace_day_range sd ed ↔
        ∃ k, sd.day ≤ k ∧ k ≤ ed.day ∧ x = pad2 k)) ∧
    bestrace_selects ⟨2012, 12, 2⟩ ⟨2012, 12, 2⟩
      (bestrace_url ⟨2012, 12, 2⟩ "XC.HTM") = true ∧
    bestrace_selects ⟨2012, 12, 2⟩ ⟨2012, 12, 2⟩
      (bestrace_url ⟨2012, 12, 1⟩ "XC.HTM") = false ∧
    bestrace_selects ⟨2012, 12, 2⟩ ⟨2012, 12, 2⟩
      (bestrace_url ⟨2012, 12, 3⟩ "XC.HTM") = false := by
  refine ⟨?_, ?_, by decide, by decide, by decide⟩
  · intro sd ed d sfx _ _ hday hed hd hnl hhtm
    exact bestrace_selects_day_iff sd ed d sfx hday hed hd hnl hhtm
  · intro sd ed hday x
    exact bestrace_day_range_mem hday

/-- C3, witness for the amended theorem at start = stop = 2012-12-02 and
day 02. -/
theorem claim3_witness :
    bestrace_selects ⟨2012, 12, 2⟩ ⟨2012, 12, 2⟩
      (bestrace_url ⟨2012, 12, 2⟩ "5K.HTM") = true :=
  (claim3_amended.1 ⟨2012, 12, 2⟩ ⟨2012, 12, 2⟩ 2 "5K.HTM" rfl rfl
    (by decide) (by decide) (by decide) (by decide) (by decide)).mpr
    ⟨by decide, by decide⟩

/-- C4, counterexample: on a page where the `Race Date` marker cannot be
located at all, `race_date_in_range` does not treat the race as in range:
`get_race_date` calls `.group()` on a failed search, so an
`AttributeError` propagates instead. -/
theorem claim4_counterexample :
    race_date_in_range ⟨2012, 1, 1⟩ ⟨2012, 12, 31⟩ "<p>no race here</p>" =
      Except.error PyErr.attributeError ∧
    race_date_in_range ⟨2012, 1, 1⟩ ⟨2012, 12, 31⟩ "<p>no race here</p>" ≠
      Except.ok true := by
  constructor
  · rfl
  · intro h
    cases h

/-- C4, amended: when the marker parses, the race date is recovered from
`Race Date:MM-DD-YY` with the two-digit year interpreted as 2000+YY (shown
on an `h3`-wrapped page and on a bare-marker page); but on every page where
the marker cannot be located or parsed — neither the `h3` search nor the
literal search succeeds, or the recovered text has no parsable marker —
`race_date_in_range` raises `AttributeError` (calling `.group()` on `None`)
rather than treating the race as in range. -/
theorem claim4_amended :
    get_race_date "<h3>  Race Date:11-03-12   </h3>" = Except.ok ⟨2012, 11, 3⟩ ∧
    get_race_date "Race Date:01-02-03" = Except.ok ⟨2003, 1, 2⟩ ∧
    (∀ (sd ed : Date) (html : String),
      h3Search html.data = none → literalDateSearch html.data = none →
      race_date_in_range sd ed html = Except.error PyErr.attributeError) ∧
    (∀ (sd ed : Date) (html : String) (g : List Char),
      h3Search html.data = some g → findRaceDate g = none →
      race_date_in_range sd ed html = Except.error PyErr.attributeError) := by
  refine ⟨rfl, rfl, ?_, ?_⟩
  · intro sd ed html h1 h2
    unfold race_date_in_range get_race_date
    rw [h1, h2]
  · intro sd ed html g h1 h2
    unfold race_date_in_range get_race_date
    rw [h1]
    simp [h2]

/-- C4, witness for the amended theorem at a concrete marker-free page. -/
theorem claim4_witness :
    race_date_in_range ⟨2013, 1, 2⟩ ⟨2013, 1, 2⟩ "<div>results</div>" =
      Except.error PyErr.attributeError :=
  claim4_amended.2.2.1 ⟨2013, 1, 2⟩ ⟨2013, 1, 2⟩ "<div>results</div>" rfl rfl

/-- C5: when no line of the downloaded race page matches the membership
list, `compile_race_results` changes nothing: the state is returned intact,
`insert_race_results` is never invoked (the insertion counter is
unchanged), and the bytes of the output file are unchanged. -/
theorem claim5_no_match_no_write :
    ∀ (df : List (String × String)) (webify : List String → String)
      (st : RRState),
      (((splitOnChar '\n' st.html.data).map fun l => (⟨l⟩ : String)).all
        fun line => !(match_against_membership df line)) = true →
      compile_race_results df webify st = st ∧
      (compile_race_results df webify st).insertCalls = st.insertCalls ∧
      (compile_race_results df webify st).outputFile = st.outputFile := by
  intro df webify st h
  have h0 : compile_race_results df webify st = st := by
    unfold compile_race_results
    have hfilter : (((splitOnChar '\n' st.html.data).map
        fun l => (⟨l⟩ : String)).filter
          fun line => match_against_membership df line) = [] := by
      rw [List.filter_eq_nil_iff]
      intro a ha
      have := List.all_eq_true.mp h a ha
      simpa using this
    rw [hfilter]
    simp
  exact ⟨h0, by rw [h0], by rw [h0]⟩

/-- C5, witness at a concrete page with no member lines. -/
theorem claim5_witness :
    compile_race_results [("Ed", "Ford")] String.join
      ⟨"no members here\nnothing at all", ⟨[]⟩, serializeDoc ⟨[]⟩, 0⟩ =
      ⟨"no members here\nnothing at all", ⟨[]⟩, serializeDoc ⟨[]⟩, 0⟩ :=
  (claim5_no_match_no_write [("Ed", "Ford")] String.join
    ⟨"no members here\nnothing at all", ⟨[]⟩, serializeDoc ⟨[]⟩, 0⟩
    (by decide)).1

/-- C6: `insert_race_results` appends the fragment as the last child of the
body without touching the previously appended children, so after appending
fragment `a` and then fragment `b` the body is the old body followed by
`a` and then `b` — `a` strictly before `b`, regardless of the fragments'
contents — and the file on disk holds the serialization of exactly that
body. -/
theorem claim6_append_order :
    ∀ (st : RRState) (a b : String),
      (insert_race_results (insert_race_results st a) b).doc.bodyChildren =
        st.doc.bodyChildren ++ [a, b] ∧
      (∀ (st2 : RRState) (f : String),
        (insert_race_results st2 f).doc.bodyChildren =
          st2.doc.bodyChildren ++ [f] ∧
        (insert_race_results st2 f).outputFile =
          serializeDoc ⟨st2.doc.bodyChildren ++ [f]⟩) := by
  intro st a b
  refine ⟨?_, fun st2 f => ⟨rfl, rfl⟩⟩
  simp [insert_race_results]

/-- C7: the explicitly denylisted vendor identifiers (`colonial`,
`opportunity`, `Harriers`, `WCRCSCOTT`) are dispatched to an informational
skip that attempts no extraction and logs no warning (and raises no error:
the dispatch is total); every identifier outside the recognized list is
dispatched to the vanilla preformatted-text fallback with a warning
logged. -/
theorem claim7_variant_dispatch :
    (crrr_variant_action "colonial" = .skipInfo ∧
     crrr_variant_action "opportunity" = .skipInfo ∧
     crrr_variant_action "Harriers" = .skipInfo ∧
     crrr_variant_action "WCRCSCOTT" = .skipInfo ∧
     attemptsExtraction VariantAction.skipInfo = false ∧
     logsWarning VariantAction.skipInfo = false) ∧
    (∀ v : String, v ∉ crrr_known_variants →
      crrr_variant_action v = .fallbackVanillaWarn ∧
      attemptsExtraction (crrr_variant_action v) = true ∧
      logsWarning (crrr_variant_action v) = true) := by
  refine ⟨⟨by decide, by decide, by decide, by decide, rfl, rfl⟩, ?_⟩
  intro v hv
  have hfb : crrr_variant_action v = .fallbackVanillaWarn := by
    unfold crrr_variant_action
    split_ifs with h1 h2 h3 h4 h5 h6
    · refine absurd ?_ hv
      simp only [List.mem_singleton] at h1
      subst h1
      decide
    · refine absurd ?_ hv
      simp only [List.mem_cons, List.not_mem_nil, or_false] at h2
      rcases h2 with rfl | rfl | rfl | rfl | rfl | rfl | rfl | rfl | rfl <;>
        decide
    · refine absurd ?_ hv
      simp only [List.mem_cons, List.not_mem_nil, or_false] at h3
      rcases h3 with rfl | rfl <;> decide
    · refine absurd ?_ hv
      simp only [List.mem_singleton] at h4
      subst h4
      decide
    · refine absurd ?_ hv
      simp only [List.mem_cons, List.not_mem_nil, or_false] at h5
      rcases h5 with rfl | rfl | rfl | rfl <;> decide
    · refine absurd ?_ hv
      simp only [List.mem_singleton] at h6
      subst h6
      decide
    · rfl
  exact ⟨hfb, by rw [hfb]; rfl, by rw [hfb]; rfl⟩

/-- C7, witness: an identifier outside the recognized list falls back to
the vanilla path with a warning. -/
theorem claim7_witness :
    crrr_variant_action "someNewVendor" = .fallbackVanillaWarn :=
  (claim7_variant_dispatch.2 "someNewVendor" (by decide)).1

/-- C9: the CompuScore matcher accepts a line iff for some roster row
`(last, first)` the line contains a literal `.` immediately followed by the
first name ending at a word boundary, and the line contains the last name
bounded by word boundaries on both sides, both case-insensitively (the two
searches are independent); in particular
`60.Gene Gugliotta       North Plainfiel,NJ 53 M U ` matches member
`(Gene, Gugliotta)`. -/
theorem claim9_matcher :
    (∀ (roster : List (String × String)) (line : String),
      csrr_match_against_membership roster line = true ↔
        ∃ m ∈ roster, DotFirstMatch m.2 line.data ∧
          BoundedNameMatch m.1 line.data) ∧
    csrr_match_against_membership [("Gugliotta", "Gene")]
      "60.Gene Gugliotta       North Plainfiel,NJ 53 M U " = true := by
  refine ⟨fun roster line => ?_, by decide⟩
  simp only [csrr_match_against_membership, List.any_eq_true, Bool.and_eq_true]
  constructor
  · rintro ⟨m, hm, hf, hl⟩
    exact ⟨m, hm, (dot_first_search_iff m.2 line).mp hf,
      (bounded_name_search_iff m.1 line).mp hl⟩
  · rintro ⟨m, hm, hf, hl⟩
    exact ⟨m, hm, (dot_first_search_iff m.2 line).mpr hf,
      (bounded_name_search_iff m.1 line).mpr hl⟩

/-- C10: `RaceResults.parse_membership_list` evaluates the unbound name
`csv` (never imported in `rr/common.py`), so for every input it raises
`NameError` before returning any members; and
`CoolRunning.load_membership_list`, which calls the method with no
`csv_file` argument at all, fails with `TypeError` before any matching can
occur. -/
theorem claim10_parse_membership_broken :
    (∀ rows : List (List String),
      parse_membership_list common_module_globals rows =
        Except.error PyErr.nameError) ∧
    crrr_load_membership_list = Except.error PyErr.typeError := by
  refine ⟨fun rows => ?_, rfl⟩
  unfold parse_membership_list
  have hcsv : common_module_globals.contains "csv" = false := by decide
  rw [hcsv]
  simp

/-- Helper: a successful `linkAt` always captures a group beginning with
the two characters `./`. -/
theorem linkAt_shape {base s g after : List Char}
    (h : linkAt base s = some (g, after)) :
    ∃ tail, g = '.' :: '/' :: tail := by
  unfold linkAt at h
  repeat' split at h
  all_goals try exact Option.noConfusion h
  simp only [Option.some.injEq, Prod.mk.injEq] at h
  obtain ⟨hg, _⟩ := h
  subst hg
  exact ⟨_, rfl⟩

/-- Helper: every group produced by the secondary-link scan begins with
`./`. -/
theorem findInnerLinksGo_shape (base : List Char) :
    ∀ (fuel : Nat) (s g : List Char), g ∈ findInnerLinksGo base fuel s →
      ∃ tail, g = '.' :: '/' :: tail := by
  intro fuel
  induction fuel with
  | zero =>
      intro s g hg
      simp [findInnerLinksGo] at hg
  | succ n ih =>
      intro s g hg
      cases s with
      | nil => simp [findInnerLinksGo] at hg
      | cons c rest =>
          simp only [findInnerLinksGo] at hg
          cases hl : linkAt base (c :: rest) with
          | none =>
              rw [hl] at hg
              exact ih rest g hg
          | some pr =>
              obtain ⟨g0, after⟩ := pr
              rw [hl] at hg
              rcases List.mem_cons.mp hg with rfl | hg2
              · exact linkAt_shape hl
              · exact ih after g hg2

/-- Helper: an occurrence of `p ++ q` contains an occurrence of `p`. -/
theorem containsSub_mono_left {p q s : List Char}
    (h : containsSub (p ++ q) s = true) : containsSub p s = true := by
  rw [containsSub_iff] at h ⊢
  obtain ⟨a, b, rfl⟩ := h
  exact ⟨a, q ++ b, by simp [List.append_assoc]⟩

/-- Helper: a `filterMap` whose guard never fires is a `map`. -/
theorem filterMap_guard_eq_map {α β : Type} (f : α → β) (cond : α → Bool)
    (l : List α) (h : ∀ x ∈ l, cond x = false) :
    (l.filterMap fun x => if cond x then none else some (f x)) = l.map f := by
  induction l with
  | nil => rfl
  | cons a as ih =>
      have ha := h a (List.mem_cons_self a as)
      simp only [List.filterMap_cons, ha, Bool.false_eq_true, if_false,
        List.map_cons]
      rw [ih fun x hx => h x (List.mem_cons_of_mem a hx)]

/-- C8, counterexample: the duplicate guard compares the link text (always
beginning with `./`) against the top-level URL with a substring test; the
URL never contains `./`, so even a link back to the very file just
downloaded is not skipped — here `TheRaceSet1.shtml`, the top-level race
file itself, is downloaded and processed a second time. -/
theorem claim8_counterexample :
    process_secondary "http://www.coolrunning.com/results/07/ma/TheRaceSet1.shtml"
        "<a href=\"./TheRaceSet2.shtml\"> <a href=\"./TheRaceSet1.shtml\">" =
      ["TheRaceSet2.shtml", "TheRaceSet1.shtml"] ∧
    "TheRaceSet1.shtml" ∈
      process_secondary "http://www.coolrunning.com/results/07/ma/TheRaceSet1.shtml"
        "<a href=\"./TheRaceSet2.shtml\"> <a href=\"./TheRaceSet1.shtml\">" := by
  refine ⟨by decide, by decide⟩

/-- C8, amended: secondary-chunk discovery is a single scan of the
top-level race file's markup (links inside secondary files are never
followed), and a discovered link is skipped only when its `./name` text
occurs as a substring of the top-level URL; whenever the URL does not
contain `./` — as is the case for every URL of the site's shape — no
discovered link is skipped, so every one of them, including a self-link, is
downloaded and processed. -/
theorem claim8_amended :
    ∀ (url markup : String), containsSub "./".data url.data = false →
      process_secondary url markup =
        (findInnerLinks
          (innerBase ⟨(splitOnChar '/' url.data).getLastD []⟩) markup).map
          (fun l => l.drop 2) := by
  intro url markup hurl
  unfold process_secondary
  refine filterMap_guard_eq_map _ _ _ ?_
  intro l hl
  simp only [findInnerLinks, List.mem_map] at hl
  obtain ⟨g, hg, rfl⟩ := hl
  obtain ⟨tail, rfl⟩ := findInnerLinksGo_shape _ _ _ _ hg
  cases hcs : containsSub ('.' :: '/' :: tail) url.data with
  | false => rfl
  | true =>
      have h2 : containsSub ("./".data ++ tail) url.data = true := hcs
      have h3 := containsSub_mono_left h2
      rw [hurl] at h3
      exact Bool.noConfusion h3

/-- C8, witness for the amended theorem: with a `./`-free top-level URL the
single discovered sibling link is processed. -/
theorem claim8_witness :
    process_secondary "http://www.coolrunning.com/results/07/ma/OtherRace9.shtml"
        "<a href=\"./OtherRace3.shtml\">" = ["OtherRace3.shtml"] := by
  rw [claim8_amended _ _ (by decide)]
  decide
